import Mathlib

/-!
Shallow embedding of the `binja` translation library (`src/lib.rs`).

The library is a keyed multi-language template store:
* `Translator.new` fixes the set of supported languages (sorted, deduplicated);
* `Translator.add_text` registers a message key with declared placeholder
  names and one template per supported language, validating the input;
* `Translator.translate` resolves a key and language and performs a
  single-pass multi-pattern substitution of bound placeholder names
  (the Rust code delegates this pass to an Aho-Corasick automaton with
  standard match semantics).

Rust `HashMap`s are modelled as association lists (`alookup`), iterator
`position` as `position`, and strings as Lean `String`s (substitution runs
over their character lists).  The `HashMap` indexing operation
`translation.translations[&language_id]`, which panics when the key is
absent, is modelled by an `Option` layer on the result of `translate`:
`none` is the panic outcome.
-/

deriving instance DecidableEq for Except

abbrev SmallStr := String

abbrev LanguageId := Nat

/-- The error enum of `src/lib.rs` (the `AhoCorasickMatch` variant is merged
into `AhoCorasickBuild`, both being stringified engine failures; neither is
reachable in the model). -/
inductive Error where
  | DuplicatedKey (s : SmallStr)
  | DuplicatedArgument (s : SmallStr)
  | UnknownLanguage (s : SmallStr)
  | UnknownArgument (s : SmallStr)
  | MissingKey (s : SmallStr)
  | MissingLanguage (s : SmallStr)
  | AhoCorasickBuild (s : String)
deriving DecidableEq

/-- `struct Translation`: declared placeholder names and the per-language
templates (a `HashMap<LanguageId, SmallStr>` modelled as an association
list). -/
structure Translation where
  arguments : List SmallStr
  translations : List (LanguageId × SmallStr)
deriving DecidableEq

/-- `struct Translator`: the supported languages and the key-indexed
message map (a `HashMap<SmallStr, Translation>` modelled as an association
list). -/
structure Translator where
  languages : List SmallStr
  translations : List (SmallStr × Translation)
deriving DecidableEq

/-- First-match association-list lookup, modelling `HashMap` lookup. -/
def alookup {α β : Type} [DecidableEq α] (k : α) : List (α × β) → Option β
  | [] => none
  | (k', v) :: rest => if k' = k then some v else alookup k rest

/-- `Iterator::position`: index of the first element satisfying `p`. -/
def position {α : Type} (p : α → Bool) : List α → Option Nat
  | [] => none
  | a :: rest => if p a then some 0 else (position p rest).map (· + 1)

/-- `Vec::dedup`: remove consecutive duplicate elements. -/
def dedupAdj {α : Type} [DecidableEq α] : List α → List α
  | [] => []
  | [a] => [a]
  | a :: b :: rest => if a = b then dedupAdj (b :: rest) else a :: dedupAdj (b :: rest)

/-- `Translator::new`: sort the input languages and drop duplicates
(`languages.sort(); languages.dedup()`); the message map starts empty. -/
def Translator.new (languages : List SmallStr) : Translator :=
  { languages := dedupAdj (languages.insertionSort (· ≤ ·))
    translations := [] }

/-- The loop of `Translator::add_text` over the supplied
`(language, template)` pairs: resolve each language to its id
(`UnknownLanguage` when absent), and reject a language supplied twice
(`DuplicatedKey`), accumulating the processed `HashMap` as an association
list. -/
def processTranslations (languages : List SmallStr) :
    List (SmallStr × SmallStr) → List (LanguageId × SmallStr) →
    Except Error (List (LanguageId × SmallStr))
  | [], acc => .ok acc
  | (language_key, message) :: rest, acc =>
    match position (fun lang => decide (lang = language_key)) languages with
    | none => .error (.UnknownLanguage language_key)
    | some language_id =>
      if (alookup language_id acc).isSome then
        .error (.DuplicatedKey language_key)
      else
        processTranslations languages rest (acc ++ [(language_id, message)])

/-- `Translator::add_text`.  The Rust function takes `&mut self` and returns
`Result<(), Error>`; it is modelled as returning the updated translator
together with the result, every error path returning the receiver
unchanged (the source only touches `self.translations` in its final
`insert`). -/
def Translator.add_text (tr : Translator) (key : SmallStr)
    (arguments : List SmallStr) (translations : List (SmallStr × SmallStr)) :
    Translator × Except Error Unit :=
  if (alookup key tr.translations).isSome then
    (tr, .error (.DuplicatedKey key))
  else
    match processTranslations tr.languages translations [] with
    | .error e => (tr, .error e)
    | .ok processed =>
      if processed.length < tr.languages.length then
        (tr, .error (.MissingLanguage "Not all languages have translations"))
      else
        ({ tr with translations := tr.translations ++ [(key, ⟨arguments, processed⟩)] },
          .ok ())

/-- The loop of `Translator::translate` over the supplied
`(placeholder, value)` pairs: each name must be declared
(`UnknownArgument`) and not already seen (`DuplicatedArgument`); the
surviving names and values are accumulated in parallel. -/
def processArgs (declared : List SmallStr) :
    List (SmallStr × SmallStr) → List SmallStr → List SmallStr →
    Except Error (List SmallStr × List SmallStr)
  | [], accA, accV => .ok (accA, accV)
  | (a, v) :: rest, accA, accV =>
    if a ∈ declared then
      if a ∈ accA then
        .error (.DuplicatedArgument a)
      else
        processArgs declared rest (accA ++ [a]) (accV ++ [v])
    else
      .error (.UnknownArgument a)

/-! ### The substitution pass

`translate` hands the accumulated names and values to
`AhoCorasick::new(...).try_replace_all(...)`.  With the builder's default
(standard) match semantics the automaton, restarted after every reported
match, reports the match with the smallest end offset at or after the
current position, preferring the longest pattern among those ending
there; replacement values are spliced into the output and never
re-scanned.  `replaceAll` embeds exactly this pass over character
lists. -/

abbrev Chars := List Char

/-- Best standard-semantics match ending exactly at offset `e`, having
started at or after offset `i`: the longest pattern `p` (earliest pattern
index on ties) with `p.length ≤ e - i` that occurs at `e - p.length`.
Returns `(pattern index, pattern length)`; `k` is the index of the first
pattern of `ps` within the full pattern list. -/
def bestEndingAt (text : Chars) (i e : Nat) : List Chars → Nat → Option (Nat × Nat)
  | [], _ => none
  | p :: rest, k =>
    let here : Option (Nat × Nat) :=
      if p.length ≤ e - i ∧ p.isPrefixOf (text.drop (e - p.length)) then
        some (k, p.length)
      else none
    match here, bestEndingAt text i e rest (k + 1) with
    | none, r => r
    | some x, none => some x
    | some x, some y => if x.2 < y.2 then some y else some x

/-- Scan end offsets `e, e+1, …` (fuel-bounded) for the first offset at
which some pattern match ends; returns `(start, pattern index, length)`. -/
def findFromAux (pats : List Chars) (text : Chars) (i : Nat) :
    Nat → Nat → Option (Nat × Nat × Nat)
  | _, 0 => none
  | e, fuel + 1 =>
    match bestEndingAt text i e pats 0 with
    | some (idx, len) => some (e - len, idx, len)
    | none => findFromAux pats text i (e + 1) fuel

/-- First standard-semantics match starting at or after position `i`. -/
def findFrom (pats : List Chars) (text : Chars) (i : Nat) : Option (Nat × Nat × Nat) :=
  findFromAux pats text i i (text.length + 1 - i)

/-- The replacement pass from position `i` (fuel-bounded; each step
advances the position, so `text.length + 1` fuel always suffices from
position `0`).  An empty-pattern match inserts its value and advances one
character, mirroring the automaton's forward-progress handling of empty
matches. -/
def replaceLoop (pats vals : List Chars) (text : Chars) : Nat → Nat → Chars
  | i, 0 => text.drop i
  | i, fuel + 1 =>
    match findFrom pats text i with
    | none => text.drop i
    | some (s, idx, len) =>
      let seg := (text.drop i).take (s - i)
      let v := vals.getD idx []
      if len = 0 then
        match text.drop s with
        | [] => seg ++ v
        | c :: _ => seg ++ v ++ c :: replaceLoop pats vals text (s + 1) fuel
      else
        seg ++ v ++ replaceLoop pats vals text (s + len) fuel

/-- `AhoCorasick::new(pats)` followed by `try_replace_all(text, vals)`. -/
def replaceAll (pats vals : List Chars) (text : Chars) : Chars :=
  replaceLoop pats vals text 0 (text.length + 1)

/-- The match structure of the pass: the list of
`(unmatched segment, matched pattern index)` steps and the unmatched
tail.  It is computed from the patterns and the original text only —
replacement values play no part — which is the single-pass (no re-scan)
property of the engine. -/
def scanLoop (pats : List Chars) (text : Chars) : Nat → Nat → List (Chars × Nat) × Chars
  | i, 0 => ([], text.drop i)
  | i, fuel + 1 =>
    match findFrom pats text i with
    | none => ([], text.drop i)
    | some (s, idx, len) =>
      let seg := (text.drop i).take (s - i)
      if len = 0 then
        match text.drop s with
        | [] => ([(seg, idx)], [])
        | c :: _ =>
          let r := scanLoop pats text (s + 1) fuel
          match r with
          | ([], tail) => ([(seg, idx)], c :: tail)
          | ((s1, j) :: rest, tail) => ((seg, idx) :: (c :: s1, j) :: rest, tail)
      else
        let r := scanLoop pats text (s + len) fuel
        ((seg, idx) :: r.1, r.2)

/-- The match structure of the whole pass over `text`. -/
def scanMatches (pats : List Chars) (text : Chars) : List (Chars × Nat) × Chars :=
  scanLoop pats text 0 (text.length + 1)

/-- Rebuild the output of the pass from its match structure: each matched
pattern index is rendered as its replacement value. -/
def renderVals (vals : List Chars) : List (Chars × Nat) → Chars → Chars
  | [], tail => tail
  | (seg, idx) :: rest, tail => seg ++ vals.getD idx [] ++ renderVals vals rest tail

/-- Rebuild the scanned text from its match structure: each matched
pattern index is rendered as the pattern itself. -/
def joinTpl (pats : List Chars) : List (Chars × Nat) → Chars → Chars
  | [], tail => tail
  | (seg, idx) :: rest, tail => seg ++ pats.getD idx [] ++ joinTpl pats rest tail

/-- `Translator::translate`.  `none` models the panic of the `HashMap`
index `translation.translations[&language_id]`; every other outcome is
`some` of the function's `Result`. -/
def Translator.translate (tr : Translator) (key language : SmallStr)
    (args : List (SmallStr × SmallStr)) : Option (Except Error String) :=
  match alookup key tr.translations with
  | none => some (.error (.MissingKey key))
  | some translation =>
    match position (fun lang => decide (lang = language)) tr.languages with
    | none => some (.error (.UnknownLanguage language))
    | some language_id =>
      match alookup language_id translation.translations with
      | none => none
      | some message_to_translate =>
        match processArgs translation.arguments args [] [] with
        | .error e => some (.error e)
        | .ok (arguments, values_to_replace) =>
          some (.ok (String.mk (replaceAll (arguments.map String.data)
            (values_to_replace.map String.data) message_to_translate.data)))

/-- Does `p` occur as a contiguous substring of `s`?  (Used to state
claims about literal placeholder occurrences in templates and outputs.) -/
def occursIn (p s : Chars) : Bool :=
  match s with
  | [] => p.isEmpty
  | _ :: rest => p.isPrefixOf s || occursIn p rest

/-- The translators built by the library: a fresh `Translator.new`
followed by any number of successful `add_text` calls. -/
inductive Reachable : Translator → Prop
  | new (languages : List SmallStr) : Reachable (Translator.new languages)
  | step {tr : Translator} (key : SmallStr) (arguments : List SmallStr)
      (translations : List (SmallStr × SmallStr)) :
      Reachable tr → (tr.add_text key arguments translations).2 = .ok () →
      Reachable (tr.add_text key arguments translations).1

/-! ### Helper lemmas: association-list lookup and `position` -/

theorem alookup_append {α β : Type} [DecidableEq α] (k : α) (l₁ l₂ : List (α × β)) :
    alookup k (l₁ ++ l₂) =
      match alookup k l₁ with
      | some v => some v
      | none => alookup k l₂ := by
  induction l₁ with
  | nil => simp [alookup]
  | cons p rest ih =>
    obtain ⟨k', v⟩ := p
    by_cases h : k' = k <;> simp [alookup, h, ih]

theorem alookup_isSome_iff {α β : Type} [DecidableEq α] (k : α) (l : List (α × β)) :
    (alookup k l).isSome = true ↔ k ∈ l.map Prod.fst := by
  induction l with
  | nil => simp [alookup]
  | cons p rest ih =>
    obtain ⟨k', v⟩ := p
    by_cases h : k' = k
    · subst h
      simp [alookup]
    · simp only [alookup, if_neg h, List.map_cons, List.mem_cons, ih]
      constructor
      · exact Or.inr
      · rintro (h' | h')
        · exact absurd h'.symm h
        · exact h'

theorem alookup_eq_none_iff {α β : Type} [DecidableEq α] (k : α) (l : List (α × β)) :
    alookup k l = none ↔ k ∉ l.map Prod.fst := by
  rw [← alookup_isSome_iff]
  cases alookup k l <;> simp

theorem position_eq_none_iff {α : Type} (p : α → Bool) (l : List α) :
    position p l = none ↔ ∀ a ∈ l, p a = false := by
  induction l with
  | nil => simp [position]
  | cons a rest ih =>
    by_cases h : p a <;> simp [position, h, ih]

theorem position_ne_mem {α : Type} [DecidableEq α] (a : α) (l : List α) :
    position (fun x => decide (x = a)) l = none ↔ a ∉ l := by
  rw [position_eq_none_iff]
  constructor
  · intro h ha
    have := h a ha
    simp at this
  · intro ha x hx
    simp only [decide_eq_false_iff_not]
    intro hxa
    exact ha (hxa ▸ hx)

theorem position_some_lt {α : Type} (p : α → Bool) (l : List α) (i : Nat)
    (h : position p l = some i) : i < l.length := by
  induction l generalizing i with
  | nil => simp [position] at h
  | cons a rest ih =>
    by_cases hp : p a
    · simp [position, hp] at h
      simp [← h]
    · simp [position, hp] at h
      obtain ⟨j, hj, rfl⟩ := h
      have := ih j hj
      simp only [List.length_cons]
      omega

theorem position_some_get {α : Type} (p : α → Bool) (l : List α) (i : Nat)
    (h : position p l = some i) : ∃ x, l.get? i = some x ∧ p x = true := by
  induction l generalizing i with
  | nil => simp [position] at h
  | cons a rest ih =>
    by_cases hp : p a
    · simp [position, hp] at h
      subst h
      exact ⟨a, rfl, hp⟩
    · simp [position, hp] at h
      obtain ⟨j, hj, rfl⟩ := h
      obtain ⟨x, hx, hpx⟩ := ih j hj
      exact ⟨x, by simpa using hx, hpx⟩

theorem position_some_of_mem {α : Type} [DecidableEq α] (a : α) (l : List α)
    (h : a ∈ l) : ∃ i, position (fun x => decide (x = a)) l = some i := by
  cases hp : position (fun x => decide (x = a)) l with
  | none => exact absurd h ((position_ne_mem a l).mp hp)
  | some i => exact ⟨i, rfl⟩

theorem position_inj {α : Type} [DecidableEq α] (a b : α) (l : List α) (i : Nat)
    (ha : position (fun x => decide (x = a)) l = some i)
    (hb : position (fun x => decide (x = b)) l = some i) : a = b := by
  obtain ⟨x, hx, hpx⟩ := position_some_get _ l i ha
  obtain ⟨y, hy, hpy⟩ := position_some_get _ l i hb
  rw [hx] at hy
  cases hy
  simp at hpx hpy
  rw [← hpx, ← hpy]

/-! ### `Translator.new`: sorting and deduplication (claim C3) -/

theorem dedupAdj_sublist {α : Type} [DecidableEq α] : ∀ l : List α, List.Sublist (dedupAdj l) l
  | [] => by simp [dedupAdj]
  | [a] => by simp [dedupAdj]
  | a :: b :: rest => by
    rw [dedupAdj]
    by_cases h : a = b
    · simp only [if_pos h]
      exact (dedupAdj_sublist (b :: rest)).cons a
    · simp only [if_neg h]
      exact (dedupAdj_sublist (b :: rest)).cons₂ a

theorem dedupAdj_sorted_lt {α : Type} [LinearOrder α] [DecidableEq α] :
    ∀ l : List α, l.Sorted (· ≤ ·) → (dedupAdj l).Sorted (· < ·)
  | [] , _ => by simp [dedupAdj]
  | [a], _ => by simp [dedupAdj]
  | a :: b :: rest, h => by
    have htail : (b :: rest).Sorted (· ≤ ·) := h.of_cons
    have hab : a ≤ b := (List.sorted_cons.mp h).1 b (by simp)
    have ih := dedupAdj_sorted_lt (b :: rest) htail
    rw [dedupAdj]
    by_cases hcase : a = b
    · simp only [if_pos hcase]
      exact ih
    · simp only [if_neg hcase]
      refine List.sorted_cons.mpr ⟨?_, ih⟩
      intro x hx
      have hxmem : x ∈ b :: rest := (dedupAdj_sublist (b :: rest)).subset hx
      have hbx : b ≤ x := by
        rcases List.mem_cons.mp hxmem with h1 | h1
        · exact h1 ▸ le_refl x
        · exact (List.sorted_cons.mp htail).1 x h1
      exact lt_of_lt_of_le (lt_of_le_of_ne hab hcase) hbx

theorem dedupAdj_eq_self_of_nodup {α : Type} [DecidableEq α] :
    ∀ l : List α, l.Nodup → dedupAdj l = l
  | [] , _ => by simp [dedupAdj]
  | [a], _ => by simp [dedupAdj]
  | a :: b :: rest, h => by
    have hne : a ≠ b := by
      intro hab
      exact (List.nodup_cons.mp h).1 (hab ▸ List.mem_cons_self b rest)
    rw [dedupAdj, if_neg hne, dedupAdj_eq_self_of_nodup (b :: rest) (List.nodup_cons.mp h).2]

theorem new_languages_sorted (L : List SmallStr) :
    (Translator.new L).languages.Sorted (· < ·) :=
  dedupAdj_sorted_lt _ (List.sorted_insertionSort _ L)

theorem new_languages_nodup (L : List SmallStr) : (Translator.new L).languages.Nodup :=
  (new_languages_sorted L).nodup

/-- C3: `Construct(L)` dedupes and sorts; it equals
`Construct(dedupe(sort(L)))`, and is invariant under permutation of the
input list (determinism up to input order).  Construction is a total
function: there is no error path. -/
theorem new_canonicalizes :
    (∀ L : List SmallStr,
      Translator.new L = Translator.new (dedupAdj (L.insertionSort (· ≤ ·)))) ∧
    (∀ L L' : List SmallStr, L.Perm L' → Translator.new L = Translator.new L') := by
  constructor
  · intro L
    have hsorted : (dedupAdj (L.insertionSort (· ≤ ·))).Sorted (· ≤ ·) :=
      (List.sorted_insertionSort _ L).sublist (dedupAdj_sublist _)
    have hnodup : (dedupAdj (L.insertionSort (· ≤ ·))).Nodup :=
      (dedupAdj_sorted_lt _ (List.sorted_insertionSort _ L)).nodup
    unfold Translator.new
    rw [hsorted.insertionSort_eq, dedupAdj_eq_self_of_nodup _ hnodup]
  · intro L L' hperm
    unfold Translator.new
    have : L.insertionSort (· ≤ ·) = L'.insertionSort (· ≤ ·) :=
      List.eq_of_perm_of_sorted
        (((List.perm_insertionSort _ L).trans hperm).trans
          (List.perm_insertionSort _ L').symm)
        (List.sorted_insertionSort _ L) (List.sorted_insertionSort _ L')
    rw [this]

/-- Witness for C3 at a concrete permuted input. -/
theorem new_canonicalizes_witness :
    (["pt", "en"] : List SmallStr).Perm ["en", "pt"] ∧
      Translator.new ["pt", "en"] = Translator.new ["en", "pt"] :=
  ⟨by decide, new_canonicalizes.2 ["pt", "en"] ["en", "pt"] (by decide)⟩


/-! ### `add_text`: case analysis and shape lemmas -/

theorem add_text_cases (tr : Translator) (key : SmallStr)
    (args : List SmallStr) (t : List (SmallStr × SmallStr)) :
    ((alookup key tr.translations).isSome = true ∧
      tr.add_text key args t = (tr, .error (.DuplicatedKey key))) ∨
    (alookup key tr.translations = none ∧ ∃ e, processTranslations tr.languages t [] = .error e ∧
      tr.add_text key args t = (tr, .error e)) ∨
    (alookup key tr.translations = none ∧ ∃ pr, processTranslations tr.languages t [] = .ok pr ∧
      pr.length < tr.languages.length ∧
      tr.add_text key args t = (tr, .error (.MissingLanguage "Not all languages have translations"))) ∨
    (alookup key tr.translations = none ∧ ∃ pr, processTranslations tr.languages t [] = .ok pr ∧
      ¬ pr.length < tr.languages.length ∧
      tr.add_text key args t =
        ({ tr with translations := tr.translations ++ [(key, ⟨args, pr⟩)] }, .ok ())) := by
  unfold Translator.add_text
  by_cases h1 : (alookup key tr.translations).isSome = true
  · exact Or.inl ⟨h1, by rw [if_pos h1]⟩
  · have hnone : alookup key tr.translations = none := by
      cases halo : alookup key tr.translations with
      | none => rfl
      | some v => rw [halo] at h1; simp at h1
    rw [if_neg h1]
    cases hpt : processTranslations tr.languages t [] with
    | error e => exact Or.inr (Or.inl ⟨hnone, e, rfl, rfl⟩)
    | ok processed =>
      by_cases h2 : processed.length < tr.languages.length
      · exact Or.inr (Or.inr (Or.inl ⟨hnone, processed, rfl, h2, by simp [h2]⟩))
      · exact Or.inr (Or.inr (Or.inr ⟨hnone, processed, rfl, h2, by simp [h2]⟩))

theorem add_text_languages_eq (tr : Translator) (key : SmallStr)
    (args : List SmallStr) (t : List (SmallStr × SmallStr)) :
    (tr.add_text key args t).1.languages = tr.languages := by
  rcases add_text_cases tr key args t with ⟨_, h⟩ | ⟨_, _, _, h⟩ | ⟨_, _, _, _, h⟩ |
    ⟨_, _, _, _, h⟩ <;> rw [h]

theorem add_text_ok_shape (tr : Translator) (key : SmallStr)
    (args : List SmallStr) (t : List (SmallStr × SmallStr))
    (h : (tr.add_text key args t).2 = .ok ()) :
    alookup key tr.translations = none ∧
    ∃ pr, processTranslations tr.languages t [] = .ok pr ∧
      ¬ pr.length < tr.languages.length ∧
      (tr.add_text key args t).1.translations = tr.translations ++ [(key, ⟨args, pr⟩)] := by
  rcases add_text_cases tr key args t with ⟨_, he⟩ | ⟨_, _, _, he⟩ | ⟨_, _, _, _, he⟩ |
    ⟨hn, pr, hpt, hlen, he⟩
  · rw [he] at h; exact absurd h (by simp)
  · rw [he] at h; exact absurd h (by simp)
  · rw [he] at h; exact absurd h (by simp)
  · exact ⟨hn, pr, hpt, hlen, by rw [he]⟩

/-- C6: `AddMessage` is atomic.  The languages sequence is never modified;
on any error the translator is returned entirely unchanged; on success
the only change is that the message map gains the new key (appended, the
key being previously absent). -/
theorem add_text_atomic (tr : Translator) (key : SmallStr)
    (args : List SmallStr) (t : List (SmallStr × SmallStr)) :
    (tr.add_text key args t).1.languages = tr.languages ∧
    (∀ e, (tr.add_text key args t).2 = .error e → (tr.add_text key args t).1 = tr) ∧
    ((tr.add_text key args t).2 = .ok () →
      alookup key tr.translations = none ∧
      ∃ entry, (tr.add_text key args t).1.translations = tr.translations ++ [(key, entry)]) := by
  refine ⟨add_text_languages_eq tr key args t, fun e he => ?_, fun h => ?_⟩
  · rcases add_text_cases tr key args t with ⟨_, h⟩ | ⟨_, _, _, h⟩ | ⟨_, _, _, _, h⟩ |
      ⟨_, _, _, _, h⟩
    · rw [h]
    · rw [h]
    · rw [h]
    · rw [h] at he; exact absurd he (by simp)
  · obtain ⟨hfresh, pr, _, _, hshape⟩ := add_text_ok_shape tr key args t h
    exact ⟨hfresh, ⟨args, pr⟩, hshape⟩

/-- Witness for C6 on a concrete error call and a concrete success call. -/
theorem add_text_atomic_witness :
    ((⟨["en"], []⟩ : Translator).add_text "k" [] []).1 = ⟨["en"], []⟩ ∧
    ∃ entry, ((⟨["en"], []⟩ : Translator).add_text "k" [] [("en", "hi")]).1.translations =
      [("k", entry)] :=
  ⟨(add_text_atomic ⟨["en"], []⟩ "k" [] []).2.1
      (.MissingLanguage "Not all languages have translations") (by decide),
    ((add_text_atomic ⟨["en"], []⟩ "k" [] [("en", "hi")]).2.2 (by decide)).2⟩

/-- C4: once `AddMessage` has succeeded for a key, the key is in the
message map; it stays there across every later `add_text` call; and
while it is there, every `AddMessage` call with that key fails with
`DuplicatedKey`, whatever the placeholder list and translation pairs
supplied — so every subsequent `AddMessage` for the key fails with
`DuplicatedKey`. -/
theorem add_text_twice_duplicated_key :
    (∀ (tr : Translator) (key : SmallStr) (args : List SmallStr)
      (t : List (SmallStr × SmallStr)), (tr.add_text key args t).2 = .ok () →
      (alookup key (tr.add_text key args t).1.translations).isSome = true) ∧
    (∀ (tr : Translator) (key : SmallStr),
      (alookup key tr.translations).isSome = true →
      ∀ (key' : SmallStr) (args' : List SmallStr) (t' : List (SmallStr × SmallStr)),
        (alookup key ((tr.add_text key' args' t').1).translations).isSome = true) ∧
    (∀ (tr : Translator) (key : SmallStr),
      (alookup key tr.translations).isSome = true →
      ∀ (args' : List SmallStr) (t' : List (SmallStr × SmallStr)),
        (tr.add_text key args' t').2 = .error (.DuplicatedKey key)) := by
  have hpresent : ∀ (tr : Translator) (key : SmallStr),
      (alookup key tr.translations).isSome = true →
      ∀ (key' : SmallStr) (args' : List SmallStr) (t' : List (SmallStr × SmallStr)),
        (alookup key ((tr.add_text key' args' t').1).translations).isSome = true := by
    intro tr key hsome key' args' t'
    rcases add_text_cases tr key' args' t' with ⟨_, he⟩ | ⟨_, _, _, he⟩ |
      ⟨_, _, _, _, he⟩ | ⟨_, _, _, _, he⟩ <;> rw [he]
    · exact hsome
    · exact hsome
    · exact hsome
    · show (alookup key (tr.translations ++ _)).isSome = true
      rw [alookup_append]
      cases halo : alookup key tr.translations with
      | none => rw [halo] at hsome; exact absurd hsome (by simp)
      | some v => simp
  refine ⟨fun tr key args t h => ?_, hpresent, fun tr key hsome args' t' => ?_⟩
  · obtain ⟨hfresh, pr, _, _, hshape⟩ := add_text_ok_shape tr key args t h
    rw [hshape, alookup_append, hfresh]
    simp [alookup]
  · rcases add_text_cases tr key args' t' with ⟨_, he⟩ | ⟨hn, _, _, _⟩ |
      ⟨hn, _, _, _, _⟩ | ⟨hn, _, _, _, _⟩
    · rw [he]
    · rw [hn] at hsome; exact absurd hsome (by simp)
    · rw [hn] at hsome; exact absurd hsome (by simp)
    · rw [hn] at hsome; exact absurd hsome (by simp)

/-- Witness for C4: a successful registration followed by an unrelated
registration, after which re-adding the key still fails. -/
theorem add_text_twice_duplicated_key_witness :
    (alookup "k" ((⟨["en"], []⟩ : Translator).add_text "k" [] [("en", "hi")]).1.translations).isSome = true ∧
    (((⟨["en"], []⟩ : Translator).add_text "k" [] [("en", "hi")]).1.add_text "k"
      ["X"] [("pt", "oi")]).2 = .error (.DuplicatedKey "k") :=
  ⟨add_text_twice_duplicated_key.1 ⟨["en"], []⟩ "k" [] [("en", "hi")] (by decide),
    add_text_twice_duplicated_key.2.2
      ((⟨["en"], []⟩ : Translator).add_text "k" [] [("en", "hi")]).1 "k" (by decide)
      ["X"] [("pt", "oi")]⟩

theorem processTranslations_error_shape (languages : List SmallStr) :
    ∀ (t : List (SmallStr × SmallStr)) (acc : List (LanguageId × SmallStr)) (e : Error),
      processTranslations languages t acc = .error e →
      (∃ s, e = .UnknownLanguage s) ∨ (∃ s, e = .DuplicatedKey s)
  | [], acc, e => by simp [processTranslations]
  | (language_key, message) :: rest, acc, e => by
    intro h
    rw [processTranslations] at h
    cases hp : position (fun lang => decide (lang = language_key)) languages with
    | none =>
      rw [hp] at h
      simp at h
      exact Or.inl ⟨language_key, h.symm⟩
    | some language_id =>
      rw [hp] at h
      by_cases hd : (alookup language_id acc).isSome = true
      · simp only [hd, ite_true, if_pos] at h
        simp at h
        exact Or.inr ⟨language_key, h.symm⟩
      · simp only [hd, Bool.false_eq_true, ite_false, if_neg] at h
        exact processTranslations_error_shape languages rest _ e h

/-- C10: whenever `AddMessage` fails with `MissingLanguage`, the payload
is the fixed text "Not all languages have translations"; no missing
language is ever named in the error. -/
theorem missing_language_error_fixed_text (tr : Translator) (key : SmallStr)
    (args : List SmallStr) (t : List (SmallStr × SmallStr)) (s : SmallStr)
    (h : (tr.add_text key args t).2 = .error (.MissingLanguage s)) :
    s = "Not all languages have translations" := by
  rcases add_text_cases tr key args t with ⟨_, he⟩ | ⟨_, e, hpt, he⟩ | ⟨_, _, _, _, he⟩ |
    ⟨_, _, _, _, he⟩
  · rw [he] at h
    simp at h
  · rw [he] at h
    simp at h
    rcases processTranslations_error_shape tr.languages t [] e hpt with ⟨s2, rfl⟩ | ⟨s2, rfl⟩ <;>
      exact absurd h (by simp)
  · rw [he] at h
    simp at h
    exact h.symm
  · rw [he] at h
    exact absurd h (by simp)

/-- Witness for C10. -/
theorem missing_language_error_fixed_text_witness :
    ((⟨["en", "pt"], []⟩ : Translator).add_text "k" [] [("en", "x")]).2 =
      .error (.MissingLanguage "Not all languages have translations") ∧
    "Not all languages have translations" = "Not all languages have translations" :=
  ⟨by decide, missing_language_error_fixed_text ⟨["en", "pt"], []⟩ "k" [] [("en", "x")]
    "Not all languages have translations" (by decide)⟩

/-- C9: `AddMessage` performs no validation of the caller-supplied
placeholder list: the call's result status is entirely independent of the
placeholder list (duplicates included), and on success the list is stored
exactly as given. -/
theorem add_text_ignores_placeholder_list (tr : Translator) (key : SmallStr)
    (args args' : List SmallStr) (t : List (SmallStr × SmallStr)) :
    (tr.add_text key args t).2 = (tr.add_text key args' t).2 ∧
    ((tr.add_text key args t).2 = .ok () →
      ∃ pr, alookup key (tr.add_text key args t).1.translations = some ⟨args, pr⟩) := by
  constructor
  · unfold Translator.add_text
    by_cases h1 : (alookup key tr.translations).isSome = true
    · rw [if_pos h1, if_pos h1]
    · rw [if_neg h1, if_neg h1]
      cases hpt : processTranslations tr.languages t [] with
      | error e => rfl
      | ok processed =>
        by_cases h2 : processed.length < tr.languages.length <;> simp [h2]
  · intro h
    obtain ⟨hfresh, pr, _, _, hshape⟩ := add_text_ok_shape tr key args t h
    refine ⟨pr, ?_⟩
    rw [hshape, alookup_append, hfresh]
    simp [alookup]

/-- Witness for C9: a placeholder list with duplicate names is accepted
and stored as given. -/
theorem add_text_ignores_placeholder_list_witness :
    ¬ (["NAME", "NAME"] : List SmallStr).Nodup ∧
    (((⟨["en"], []⟩ : Translator).add_text "k" ["NAME", "NAME"] [("en", "x")]).2 =
      ((⟨["en"], []⟩ : Translator).add_text "k" [] [("en", "x")]).2) ∧
    ∃ pr, alookup "k" ((⟨["en"], []⟩ : Translator).add_text "k" ["NAME", "NAME"]
      [("en", "x")]).1.translations = some ⟨["NAME", "NAME"], pr⟩ :=
  ⟨by decide,
    (add_text_ignores_placeholder_list ⟨["en"], []⟩ "k" ["NAME", "NAME"] [] [("en", "x")]).1,
    (add_text_ignores_placeholder_list ⟨["en"], []⟩ "k" ["NAME", "NAME"] []
      [("en", "x")]).2 (by decide)⟩

/-! ### `processTranslations`: success facts (claims C5, C8, C9) -/

theorem processTranslations_ok_length (languages : List SmallStr) :
    ∀ (t : List (SmallStr × SmallStr)) (acc out : List (LanguageId × SmallStr)),
      processTranslations languages t acc = .ok out → out.length = acc.length + t.length
  | [], acc, out => by
    intro h
    rw [processTranslations] at h
    simp at h
    simp [← h]
  | (language_key, message) :: rest, acc, out => by
    intro h
    rw [processTranslations] at h
    cases hp : position (fun lang => decide (lang = language_key)) languages with
    | none => rw [hp] at h; exact absurd h (by simp)
    | some language_id =>
      rw [hp] at h
      by_cases hd : (alookup language_id acc).isSome = true
      · simp only [hd, ite_true, if_pos] at h
        exact absurd h (by simp)
      · simp only [hd, Bool.false_eq_true, ite_false, if_neg] at h
        have := processTranslations_ok_length languages rest _ out h
        simp at this
        simp [this]
        omega

theorem processTranslations_ok_mem (languages : List SmallStr) :
    ∀ (t : List (SmallStr × SmallStr)) (acc out : List (LanguageId × SmallStr)),
      processTranslations languages t acc = .ok out → ∀ p ∈ t, p.1 ∈ languages
  | [], _, _ => by simp
  | (language_key, message) :: rest, acc, out => by
    intro h p hp
    rw [processTranslations] at h
    cases hpos : position (fun lang => decide (lang = language_key)) languages with
    | none => rw [hpos] at h; exact absurd h (by simp)
    | some language_id =>
      rw [hpos] at h
      by_cases hd : (alookup language_id acc).isSome = true
      · simp only [hd, ite_true, if_pos] at h
        exact absurd h (by simp)
      · simp only [hd, Bool.false_eq_true, ite_false, if_neg] at h
        rcases List.mem_cons.mp hp with rfl | hmem
        · obtain ⟨x, hget, hpx⟩ := position_some_get _ _ _ hpos
          simp at hpx
          have : x ∈ languages := List.get?_mem hget
          rw [hpx] at this
          exact this
        · exact processTranslations_ok_mem languages rest _ out h p hmem

theorem processTranslations_ok_not_mem (languages : List SmallStr) :
    ∀ (t : List (SmallStr × SmallStr)) (acc out : List (LanguageId × SmallStr))
      (l : SmallStr) (lid : LanguageId),
      processTranslations languages t acc = .ok out →
      position (fun x => decide (x = l)) languages = some lid →
      (alookup lid acc).isSome = true → l ∉ t.map Prod.fst
  | [], _, _, _, _ => by simp
  | (language_key, message) :: rest, acc, out, l, lid => by
    intro h hpos hacc
    rw [processTranslations] at h
    cases hposk : position (fun lang => decide (lang = language_key)) languages with
    | none => rw [hposk] at h; exact absurd h (by simp)
    | some language_id =>
      rw [hposk] at h
      by_cases hd : (alookup language_id acc).isSome = true
      · simp only [hd, ite_true, if_pos] at h
        exact absurd h (by simp)
      · simp only [hd, Bool.false_eq_true, ite_false, if_neg] at h
        simp only [List.map_cons, List.mem_cons]
        rintro (rfl | hmem)
        · rw [hpos] at hposk
          cases hposk
          rw [hacc] at hd
          exact hd rfl
        · have hacc2 : (alookup lid (acc ++ [(language_id, message)])).isSome = true := by
            rw [alookup_append]
            cases halo : alookup lid acc with
            | none => rw [halo] at hacc; simp at hacc
            | some v => simp
          exact processTranslations_ok_not_mem languages rest _ out l lid h hpos hacc2 hmem

theorem processTranslations_ok_fst_nodup (languages : List SmallStr) :
    ∀ (t : List (SmallStr × SmallStr)) (acc out : List (LanguageId × SmallStr)),
      processTranslations languages t acc = .ok out → (t.map Prod.fst).Nodup
  | [], _, _ => by simp
  | (language_key, message) :: rest, acc, out => by
    intro h
    rw [processTranslations] at h
    cases hposk : position (fun lang => decide (lang = language_key)) languages with
    | none => rw [hposk] at h; exact absurd h (by simp)
    | some language_id =>
      rw [hposk] at h
      by_cases hd : (alookup language_id acc).isSome = true
      · simp only [hd, ite_true, if_pos] at h
        exact absurd h (by simp)
      · simp only [hd, Bool.false_eq_true, ite_false, if_neg] at h
        have hacc2 : (alookup language_id (acc ++ [(language_id, message)])).isSome = true := by
          rw [alookup_append]
          cases halo : alookup language_id acc with
          | none => simp [alookup]
          | some v => simp
        refine List.nodup_cons.mpr ⟨?_, processTranslations_ok_fst_nodup languages rest _ out h⟩
        exact processTranslations_ok_not_mem languages rest _ out language_key language_id h
          hposk hacc2

theorem processTranslations_ok_of_valid (languages : List SmallStr) :
    ∀ (t : List (SmallStr × SmallStr)) (acc : List (LanguageId × SmallStr)),
      (∀ p ∈ t, p.1 ∈ languages) → (t.map Prod.fst).Nodup →
      (∀ p ∈ t, ∀ id, position (fun x => decide (x = p.1)) languages = some id →
        alookup id acc = none) →
      ∃ out, processTranslations languages t acc = .ok out
  | [], acc => fun _ _ _ => ⟨acc, by rw [processTranslations]⟩
  | (language_key, message) :: rest, acc => by
    intro hmem hnodup hfree
    obtain ⟨lid, hpos⟩ := position_some_of_mem language_key languages
      (hmem (language_key, message) (by simp))
    have hnone : alookup lid acc = none :=
      hfree (language_key, message) (by simp) lid hpos
    have hrec : ∃ out, processTranslations languages rest
        (acc ++ [(lid, message)]) = .ok out := by
      refine processTranslations_ok_of_valid languages rest _
        (fun p hp => hmem p (List.mem_cons_of_mem _ hp))
        (List.nodup_cons.mp (by simpa using hnodup)).2
        (fun p hp id hid => ?_)
      rw [alookup_append, hfree p (List.mem_cons_of_mem _ hp) id hid]
      have hne : id ≠ lid := by
        intro heq
        have hpk : p.1 = language_key := position_inj p.1 language_key languages lid
          (heq ▸ hid) hpos
        have hk : language_key ∈ rest.map Prod.fst := List.mem_map.mpr ⟨p, hp, hpk⟩
        exact (List.nodup_cons.mp (by simpa using hnodup)).1 hk
      have hne2 : ¬ lid = id := fun h => hne h.symm
      simp [alookup, hne2]
    obtain ⟨out, hout⟩ := hrec
    refine ⟨out, ?_⟩
    rw [processTranslations, hpos]
    simp only [hnone, Option.isSome_none, Bool.false_eq_true, ite_false, if_neg]
    exact hout

/-- C5 (as stated) is refuted: the translation pairs cover a strict
subset of the registered languages, yet `AddMessage` fails with
`DuplicatedKey` (the duplicate-language check fires first), not
`MissingLanguage`. -/
theorem add_text_missing_language_iff_counterexample :
    (∀ p ∈ ([("en", "a"), ("en", "b")] : List (SmallStr × SmallStr)),
      p.1 ∈ (⟨["en", "pt"], []⟩ : Translator).languages) ∧
    ("pt" ∈ (⟨["en", "pt"], []⟩ : Translator).languages ∧
      "pt" ∉ ([("en", "a"), ("en", "b")] : List (SmallStr × SmallStr)).map Prod.fst) ∧
    ((⟨["en", "pt"], []⟩ : Translator).add_text "k" [] [("en", "a"), ("en", "b")]).2 =
      .error (.DuplicatedKey "en") ∧
    ¬ ∃ s, ((⟨["en", "pt"], []⟩ : Translator).add_text "k" [] [("en", "a"), ("en", "b")]).2 =
      .error (.MissingLanguage s) := by
  refine ⟨by decide, ⟨by decide, by decide⟩, by decide, ?_⟩
  rintro ⟨s, hs⟩
  rw [show ((⟨["en", "pt"], []⟩ : Translator).add_text "k" [] [("en", "a"), ("en", "b")]).2 =
    .error (.DuplicatedKey "en") by decide] at hs
  simp at hs

/-- C5 amended: for a registry whose language list is duplicate-free,
`AddMessage` fails with `MissingLanguage` if and only if the key is
fresh, every supplied pair names a registered language, no language
appears twice among the pairs, and some registered language has no
pair (the pairs cover a strict subset of the registered languages). -/
theorem add_text_missing_language_iff (tr : Translator) (key : SmallStr)
    (args : List SmallStr) (t : List (SmallStr × SmallStr))
    (hnd : tr.languages.Nodup) :
    (∃ s, (tr.add_text key args t).2 = .error (.MissingLanguage s)) ↔
      (alookup key tr.translations = none ∧ (∀ p ∈ t, p.1 ∈ tr.languages) ∧
        (t.map Prod.fst).Nodup ∧ ∃ l ∈ tr.languages, l ∉ t.map Prod.fst) := by
  constructor
  · rintro ⟨s, hs⟩
    rcases add_text_cases tr key args t with ⟨h1, he⟩ | ⟨h1, e, hpt, he⟩ |
      ⟨h1, pr, hpt, hlen, he⟩ | ⟨h1, pr, hpt, hlen, he⟩
    · rw [he] at hs; exact absurd hs (by simp)
    · rw [he] at hs
      simp at hs
      rcases processTranslations_error_shape tr.languages t [] e hpt with ⟨s2, rfl⟩ |
        ⟨s2, rfl⟩ <;> exact absurd hs.symm (by simp)
    · refine ⟨h1, processTranslations_ok_mem tr.languages t [] pr hpt,
        processTranslations_ok_fst_nodup tr.languages t [] pr hpt, ?_⟩
      by_contra hcov
      push_neg at hcov
      have hsub : tr.languages ⊆ t.map Prod.fst := fun l hl => hcov l hl
      have hle : tr.languages.length ≤ (t.map Prod.fst).length :=
        (List.subperm_of_subset hnd hsub).length_le
      have hlenpr : pr.length = t.length :=
        by simpa using processTranslations_ok_length tr.languages t [] pr hpt
      rw [List.length_map] at hle
      rw [hlenpr] at hlen
      omega
    · rw [he] at hs; exact absurd hs (by simp)
  · rintro ⟨hfresh, hmem, hnodup, l, hl, hlnot⟩
    have hok : ∃ out, processTranslations tr.languages t [] = .ok out :=
      processTranslations_ok_of_valid tr.languages t [] hmem hnodup
        (fun _ _ _ _ => rfl)
    obtain ⟨out, hout⟩ := hok
    have houtlen : out.length = t.length :=
      by simpa using processTranslations_ok_length tr.languages t [] out hout
    have hlt : out.length < tr.languages.length := by
      rw [houtlen]
      have hsub : (l :: t.map Prod.fst) ⊆ tr.languages := by
        intro x hx
        rcases List.mem_cons.mp hx with rfl | hx2
        · exact hl
        · obtain ⟨p, hp, rfl⟩ := List.mem_map.mp hx2
          exact hmem p hp
      have hnd2 : (l :: t.map Prod.fst).Nodup := List.nodup_cons.mpr ⟨hlnot, hnodup⟩
      have := (List.subperm_of_subset hnd2 hsub).length_le
      simp at this
      omega
    rcases add_text_cases tr key args t with ⟨h1, he⟩ | ⟨h1, e, hpt, he⟩ |
      ⟨h1, pr, hpt, hlen, he⟩ | ⟨h1, pr, hpt, hlen, he⟩
    · rw [hfresh] at h1; exact absurd h1 (by simp)
    · rw [hout] at hpt; exact absurd hpt (by simp)
    · exact ⟨"Not all languages have translations", by rw [he]⟩
    · rw [hout] at hpt
      cases hpt
      exact absurd hlt hlen

/-- Witness for the amended C5. -/
theorem add_text_missing_language_iff_witness :
    (⟨["en", "pt"], []⟩ : Translator).languages.Nodup ∧
    ∃ s, ((⟨["en", "pt"], []⟩ : Translator).add_text "k" [] [("en", "x")]).2 =
      .error (.MissingLanguage s) :=
  ⟨by decide,
    (add_text_missing_language_iff ⟨["en", "pt"], []⟩ "k" [] [("en", "x")] (by decide)).mpr
      ⟨by decide, by decide, by decide, "pt", by decide, by decide⟩⟩

/-! ### `translate`: validation order (claim C7) -/

theorem processArgs_append (declared : List SmallStr) :
    ∀ (pre rest : List (SmallStr × SmallStr)) (accA accV : List SmallStr),
      (∀ p ∈ pre, p.1 ∈ declared) → (accA ++ pre.map Prod.fst).Nodup →
      processArgs declared (pre ++ rest) accA accV =
        processArgs declared rest (accA ++ pre.map Prod.fst) (accV ++ pre.map Prod.snd)
  | [], rest, accA, accV => by simp
  | (a, v) :: pre, rest, accA, accV => by
    intro hdecl hnd
    have ha : a ∈ declared := hdecl (a, v) (by simp)
    have hnotin : a ∉ accA := by
      intro hmem
      have hdisj := List.disjoint_of_nodup_append hnd
      exact hdisj hmem (by simp)
    rw [List.cons_append, processArgs, if_pos ha, if_neg hnotin]
    have hnd2 : ((accA ++ [a]) ++ pre.map Prod.fst).Nodup := by
      rw [← List.append_cons]
      simpa using hnd
    rw [processArgs_append declared pre rest (accA ++ [a]) (accV ++ [v])
      (fun p hp => hdecl p (List.mem_cons_of_mem _ hp)) hnd2]
    simp

theorem translate_eq (tr : Translator) (key language : SmallStr)
    (args : List (SmallStr × SmallStr)) (entry : Translation) (id : LanguageId)
    (msg : SmallStr)
    (hk : alookup key tr.translations = some entry)
    (hl : position (fun x => decide (x = language)) tr.languages = some id)
    (hm : alookup id entry.translations = some msg) :
    tr.translate key language args =
      match processArgs entry.arguments args [] [] with
      | .error e => some (.error e)
      | .ok (ns, vs) => some (.ok (String.mk (replaceAll (ns.map String.data)
          (vs.map String.data) msg.data))) := by
  unfold Translator.translate
  rw [hk]
  simp only []
  rw [hl]
  simp only []
  rw [hm]

/-- C7: `Translate` validates in a fixed order, returning the error of
the first failing check: an absent key yields `MissingKey` (before
language resolution); an unregistered language yields `UnknownLanguage`;
then, processing the bindings in order (with the template for the
resolved language present), a placeholder name not declared for the key
yields `UnknownArgument`, and a declared name already seen among the
earlier bindings yields `DuplicatedArgument`. -/
theorem translate_validation_order :
    (∀ (tr : Translator) (key language : SmallStr) (args : List (SmallStr × SmallStr)),
      alookup key tr.translations = none →
      tr.translate key language args = some (.error (.MissingKey key))) ∧
    (∀ (tr : Translator) (key language : SmallStr) (args : List (SmallStr × SmallStr))
      (entry : Translation),
      alookup key tr.translations = some entry →
      position (fun x => decide (x = language)) tr.languages = none →
      tr.translate key language args = some (.error (.UnknownLanguage language))) ∧
    (∀ (tr : Translator) (key language : SmallStr) (entry : Translation)
      (id : LanguageId) (msg : SmallStr) (pre post : List (SmallStr × SmallStr))
      (a v : SmallStr),
      alookup key tr.translations = some entry →
      position (fun x => decide (x = language)) tr.languages = some id →
      alookup id entry.translations = some msg →
      (∀ p ∈ pre, p.1 ∈ entry.arguments) → (pre.map Prod.fst).Nodup →
      a ∉ entry.arguments →
      tr.translate key language (pre ++ (a, v) :: post) =
        some (.error (.UnknownArgument a))) ∧
    (∀ (tr : Translator) (key language : SmallStr) (entry : Translation)
      (id : LanguageId) (msg : SmallStr) (pre post : List (SmallStr × SmallStr))
      (a v : SmallStr),
      alookup key tr.translations = some entry →
      position (fun x => decide (x = language)) tr.languages = some id →
      alookup id entry.translations = some msg →
      (∀ p ∈ pre, p.1 ∈ entry.arguments) → (pre.map Prod.fst).Nodup →
      a ∈ entry.arguments → a ∈ pre.map Prod.fst →
      tr.translate key language (pre ++ (a, v) :: post) =
        some (.error (.DuplicatedArgument a))) := by
  refine ⟨fun tr key language args hk => ?_,
    fun tr key language args entry hk hl => ?_,
    fun tr key language entry id msg pre post a v hk hl hm hdecl hnd hnotdecl => ?_,
    fun tr key language entry id msg pre post a v hk hl hm hdecl hnd hadecl hdup => ?_⟩
  · unfold Translator.translate
    rw [hk]
  · unfold Translator.translate
    rw [hk]
    simp only []
    rw [hl]
  · rw [translate_eq tr key language _ entry id msg hk hl hm,
      processArgs_append entry.arguments pre ((a, v) :: post) [] [] hdecl (by simpa using hnd),
      processArgs, if_neg hnotdecl]
  · rw [translate_eq tr key language _ entry id msg hk hl hm,
      processArgs_append entry.arguments pre ((a, v) :: post) [] [] hdecl (by simpa using hnd),
      processArgs, if_pos hadecl]
    rw [if_pos (by simpa using hdup)]

/-- Witness for C7: all four validation outcomes at concrete inputs. -/
theorem translate_validation_order_witness :
    ((⟨["en"], [("k", ⟨["A", "B"], [(0, "xAy")]⟩)]⟩ : Translator).translate "zz" "en" [] =
      some (.error (.MissingKey "zz"))) ∧
    ((⟨["en"], [("k", ⟨["A", "B"], [(0, "xAy")]⟩)]⟩ : Translator).translate "k" "cz" [] =
      some (.error (.UnknownLanguage "cz"))) ∧
    ((⟨["en"], [("k", ⟨["A", "B"], [(0, "xAy")]⟩)]⟩ : Translator).translate "k" "en"
      [("A", "1"), ("C", "2")] = some (.error (.UnknownArgument "C"))) ∧
    ((⟨["en"], [("k", ⟨["A", "B"], [(0, "xAy")]⟩)]⟩ : Translator).translate "k" "en"
      [("A", "1"), ("A", "2")] = some (.error (.DuplicatedArgument "A"))) :=
  ⟨translate_validation_order.1 _ "zz" "en" [] (by decide),
    translate_validation_order.2.1 _ "k" "cz" [] ⟨["A", "B"], [(0, "xAy")]⟩ (by decide)
      (by decide),
    translate_validation_order.2.2.1 _ "k" "en" ⟨["A", "B"], [(0, "xAy")]⟩ 0 "xAy"
      [("A", "1")] [] "C" "2" (by decide) (by decide) (by decide) (by decide) (by decide)
      (by decide),
    translate_validation_order.2.2.2 _ "k" "en" ⟨["A", "B"], [(0, "xAy")]⟩ 0 "xAy"
      [("A", "1")] [] "A" "2" (by decide) (by decide) (by decide) (by decide) (by decide)
      (by decide) (by decide)⟩

/-! ### The per-key template-map invariant (claim C8) -/

theorem processTranslations_ok_keys_lt (languages : List SmallStr) :
    ∀ (t : List (SmallStr × SmallStr)) (acc out : List (LanguageId × SmallStr)),
      processTranslations languages t acc = .ok out →
      (∀ x ∈ acc.map Prod.fst, x < languages.length) →
      ∀ x ∈ out.map Prod.fst, x < languages.length
  | [], acc, out => by
    intro h hacc
    rw [processTranslations] at h
    simp at h
    rw [← h]
    exact hacc
  | (language_key, message) :: rest, acc, out => by
    intro h hacc
    rw [processTranslations] at h
    cases hpos : position (fun lang => decide (lang = language_key)) languages with
    | none => rw [hpos] at h; exact absurd h (by simp)
    | some language_id =>
      rw [hpos] at h
      by_cases hd : (alookup language_id acc).isSome = true
      · simp only [hd, ite_true, if_pos] at h
        exact absurd h (by simp)
      · simp only [hd, Bool.false_eq_true, ite_false, if_neg] at h
        refine processTranslations_ok_keys_lt languages rest _ out h ?_
        intro x hx
        simp at hx
        rcases hx with hx | hx
        · exact hacc x (by simpa using hx)
        · exact hx ▸ position_some_lt _ _ _ hpos

theorem processTranslations_ok_keys_nodup (languages : List SmallStr) :
    ∀ (t : List (SmallStr × SmallStr)) (acc out : List (LanguageId × SmallStr)),
      processTranslations languages t acc = .ok out →
      (acc.map Prod.fst).Nodup → (out.map Prod.fst).Nodup
  | [], acc, out => by
    intro h hacc
    rw [processTranslations] at h
    simp at h
    rw [← h]
    exact hacc
  | (language_key, message) :: rest, acc, out => by
    intro h hacc
    rw [processTranslations] at h
    cases hpos : position (fun lang => decide (lang = language_key)) languages with
    | none => rw [hpos] at h; exact absurd h (by simp)
    | some language_id =>
      rw [hpos] at h
      by_cases hd : (alookup language_id acc).isSome = true
      · simp only [hd, ite_true, if_pos] at h
        exact absurd h (by simp)
      · simp only [hd, Bool.false_eq_true, ite_false, if_neg] at h
        refine processTranslations_ok_keys_nodup languages rest _ out h ?_
        have hnotin : language_id ∉ acc.map Prod.fst := by
          intro hmem
          rw [(alookup_isSome_iff language_id acc).mpr hmem] at hd
          exact hd rfl
        rw [List.map_append, List.nodup_append]
        refine ⟨hacc, List.nodup_singleton _, fun x hx hxx => ?_⟩
        simp at hxx
        exact hnotin (hxx ▸ hx)

/-- The invariant: the entry holds exactly one template per language id
`0, …, n-1` — a template lookup succeeds exactly for the ids of the
language list, and no id is stored twice. -/
def EntryComplete (n : Nat) (entry : Translation) : Prop :=
  (entry.translations.map Prod.fst).Nodup ∧
  ∀ id : LanguageId, (alookup id entry.translations).isSome = true ↔ id < n


theorem alookup_some_mem {α β : Type} [DecidableEq α] (k : α) (v : β) :
    ∀ l : List (α × β), alookup k l = some v → (k, v) ∈ l
  | [] => by simp [alookup]
  | (k', v') :: rest => by
    intro h
    rw [alookup] at h
    by_cases hk : k' = k
    · rw [if_pos hk] at h
      cases h
      simp [hk]
    · rw [if_neg hk] at h
      exact List.mem_cons_of_mem _ (alookup_some_mem k v rest h)

theorem processed_complete (languages : List SmallStr) (t : List (SmallStr × SmallStr))
    (pr : List (LanguageId × SmallStr))
    (hpt : processTranslations languages t [] = .ok pr)
    (hlen : ¬ pr.length < languages.length) :
    (pr.map Prod.fst).Nodup ∧
      ∀ id : LanguageId, (alookup id pr).isSome = true ↔ id < languages.length := by
  have hnd := processTranslations_ok_keys_nodup languages t [] pr hpt (by simp)
  have hlt := processTranslations_ok_keys_lt languages t [] pr hpt (by simp)
  have hsub : pr.map Prod.fst ⊆ List.range languages.length := fun x hx =>
    List.mem_range.mpr (hlt x hx)
  have hsubperm := List.subperm_of_subset hnd hsub
  have hle := hsubperm.length_le
  simp only [List.length_map, List.length_range] at hle
  have hperm : (pr.map Prod.fst).Perm (List.range languages.length) :=
    hsubperm.perm_of_length_le (by simp; omega)
  refine ⟨hnd, fun id => ?_⟩
  rw [alookup_isSome_iff, hperm.mem_iff, List.mem_range]

/-- The registry invariant of claim C8: every stored entry holds exactly
one template per `LanguageId` of the language list. -/
def RegistryInv (tr : Translator) : Prop :=
  ∀ p ∈ tr.translations, (p.2.translations.map Prod.fst).Nodup ∧
    ∀ id : LanguageId, (alookup id p.2.translations).isSome = true ↔ id < tr.languages.length

theorem reachable_inv : ∀ tr : Translator, Reachable tr → RegistryInv tr := by
  intro tr h
  induction h with
  | new L =>
    intro p hp
    simp [Translator.new] at hp
  | step key args t hre hok ih =>
    intro p hp
    obtain ⟨hfresh, pr, hpt, hlen, hshape⟩ := add_text_ok_shape _ key args t hok
    rw [hshape] at hp
    rw [add_text_languages_eq]
    rcases List.mem_append.mp hp with hp2 | hp2
    · exact ih p hp2
    · simp at hp2
      rw [hp2]
      exact processed_complete _ t pr hpt hlen

theorem translate_missing_key (tr : Translator) (key language : SmallStr)
    (args : List (SmallStr × SmallStr)) (hk : alookup key tr.translations = none) :
    tr.translate key language args = some (.error (.MissingKey key)) := by
  unfold Translator.translate
  rw [hk]

theorem translate_unknown_language (tr : Translator) (key language : SmallStr)
    (args : List (SmallStr × SmallStr)) (entry : Translation)
    (hk : alookup key tr.translations = some entry)
    (hl : position (fun x => decide (x = language)) tr.languages = none) :
    tr.translate key language args = some (.error (.UnknownLanguage language)) := by
  unfold Translator.translate
  rw [hk]
  simp only []
  rw [hl]

/-- C8: every entry of a registry built through `Translator.new` and
successful `add_text` calls holds exactly one template per `LanguageId`
of the language list (no fewer, no more), and consequently `translate`'s
direct template lookup can never hit the panicking "registered language
but no template" case: `translate` never returns the panic outcome
`none`. -/
theorem registry_invariant_no_panic (tr : Translator) (h : Reachable tr) :
    RegistryInv tr ∧
    ∀ (key language : SmallStr) (args : List (SmallStr × SmallStr)),
      tr.translate key language args ≠ none := by
  refine ⟨reachable_inv tr h, fun key language args => ?_⟩
  cases hk : alookup key tr.translations with
  | none => rw [translate_missing_key tr key language args hk]; simp
  | some entry =>
    cases hl : position (fun x => decide (x = language)) tr.languages with
    | none => rw [translate_unknown_language tr key language args entry hk hl]; simp
    | some id =>
      have hid : id < tr.languages.length := position_some_lt _ _ _ hl
      have hcomp := reachable_inv tr h (key, entry) (alookup_some_mem key entry _ hk)
      have hsome := (hcomp.2 id).mpr hid
      obtain ⟨msg, hm⟩ : ∃ msg, alookup id entry.translations = some msg := by
        cases hmm : alookup id entry.translations with
        | none => rw [hmm] at hsome; exact absurd hsome (by simp)
        | some m => exact ⟨m, rfl⟩
      rw [translate_eq tr key language args entry id msg hk hl hm]
      cases processArgs entry.arguments args [] [] with
      | error e => simp
      | ok pair =>
        obtain ⟨ns, vs⟩ := pair
        simp

/-- Witness for C8 at a concrete reachable registry. -/
theorem registry_invariant_no_panic_witness :
    ((Translator.new ["en"]).add_text "k" ["NAME"] [("en", "Hello, NAME!")]).1.translate
      "k" "en" [] ≠ none :=
  (registry_invariant_no_panic _
    (Reachable.step "k" ["NAME"] [("en", "Hello, NAME!")] (Reachable.new ["en"])
      (by decide))).2 "k" "en" []

/-! ### Soundness of the match search (claims C1, C2) -/

theorem bestEndingAt_sound (text : Chars) (i e : Nat) :
    ∀ (ps : List Chars) (k idx len : Nat),
      bestEndingAt text i e ps k = some (idx, len) →
      k ≤ idx ∧ ∃ p, ps.get? (idx - k) = some p ∧ p.length = len ∧ len ≤ e - i ∧
        p.isPrefixOf (text.drop (e - len)) = true
  | [], k, idx, len => by simp [bestEndingAt]
  | p :: rest, k, idx, len => by
    intro h
    simp only [bestEndingAt] at h
    by_cases hc : p.length ≤ e - i ∧ p.isPrefixOf (text.drop (e - p.length)) = true
    · rw [if_pos hc] at h
      cases hrec : bestEndingAt text i e rest (k + 1) with
      | none =>
        rw [hrec] at h
        obtain ⟨hidx, hlen⟩ : k = idx ∧ p.length = len := by simpa using h
        refine ⟨by omega, p, ?_, ?_, ?_, ?_⟩
        · have harith : idx - k = 0 := by omega
          rw [harith]
          simp
        · exact hlen
        · rw [← hlen]
          exact hc.1
        · rw [← hlen]
          exact hc.2
      | some y =>
        obtain ⟨yi, yl⟩ := y
        rw [hrec] at h
        have h3 : (if p.length < yl then some (yi, yl)
            else some (k, p.length) : Option (Nat × Nat)) = some (idx, len) := h
        by_cases hcmp : p.length < yl
        · rw [if_pos hcmp] at h3
          obtain ⟨hidx, hlen⟩ : yi = idx ∧ yl = len := by simpa using h3
          obtain ⟨hk1, p2, hget, hplen, hle, hpre⟩ :=
            bestEndingAt_sound text i e rest (k + 1) yi yl hrec
          refine ⟨by omega, p2, ?_, ?_, ?_, ?_⟩
          · have harith : idx - k = (yi - (k + 1)) + 1 := by omega
            rw [harith]
            simpa using hget
          · rw [← hlen]
            exact hplen
          · rw [← hlen]
            exact hle
          · rw [← hlen]
            exact hpre
        · rw [if_neg hcmp] at h3
          obtain ⟨hidx, hlen⟩ : k = idx ∧ p.length = len := by simpa using h3
          refine ⟨by omega, p, ?_, ?_, ?_, ?_⟩
          · have harith : idx - k = 0 := by omega
            rw [harith]
            simp
          · exact hlen
          · rw [← hlen]
            exact hc.1
          · rw [← hlen]
            exact hc.2
    · rw [if_neg hc] at h
      have h2 : bestEndingAt text i e rest (k + 1) = some (idx, len) := by
        cases hrec : bestEndingAt text i e rest (k + 1) with
        | none => rw [hrec] at h; exact Option.noConfusion h
        | some y =>
          rw [hrec] at h
          have h4 : some y = some (idx, len) := h
          exact h4
      obtain ⟨hk1, p2, hget, hplen, hle, hpre⟩ :=
        bestEndingAt_sound text i e rest (k + 1) idx len h2
      refine ⟨by omega, p2, ?_, hplen, hle, hpre⟩
      have harith : idx - k = (idx - (k + 1)) + 1 := by omega
      rw [harith]
      simpa using hget

theorem findFromAux_sound (pats : List Chars) (text : Chars) (i : Nat) :
    ∀ (fuel e s idx len : Nat), i ≤ e →
      findFromAux pats text i e fuel = some (s, idx, len) →
      i ≤ s ∧ ∃ p, pats.get? idx = some p ∧ p.length = len ∧
        p.isPrefixOf (text.drop s) = true := by
  intro fuel
  induction fuel with
  | zero =>
    intro e s idx len hie h
    rw [findFromAux] at h
    exact absurd h (by simp)
  | succ fuel ih =>
    intro e s idx len hie h
    rw [findFromAux] at h
    cases hb : bestEndingAt text i e pats 0 with
    | none =>
      rw [hb] at h
      exact ih (e + 1) s idx len (by omega) h
    | some pair =>
      obtain ⟨idx2, len2⟩ := pair
      rw [hb] at h
      have h3 : some (e - len2, idx2, len2) = some (s, idx, len) := h
      simp at h3
      obtain ⟨hs, hidx, hlen⟩ := h3
      obtain ⟨_, p, hget, hplen, hle, hpre⟩ :=
        bestEndingAt_sound text i e pats 0 idx2 len2 hb
      refine ⟨by omega, p, ?_, ?_, ?_⟩
      · rw [← hidx]
        simpa using hget
      · rw [← hlen]
        exact hplen
      · rw [← hs]
        exact hpre

theorem findFrom_sound (pats : List Chars) (text : Chars) (i s idx len : Nat)
    (h : findFrom pats text i = some (s, idx, len)) :
    i ≤ s ∧ ∃ p, pats.get? idx = some p ∧ p.length = len ∧
      p.isPrefixOf (text.drop s) = true :=
  findFromAux_sound pats text i (text.length + 1 - i) i s idx len (le_refl i) h

theorem getD_of_get? (pats : List Chars) (idx : Nat) (p : Chars)
    (h : pats.get? idx = some p) : pats.getD idx [] = p := by
  simp [List.getD_eq_getElem?_getD, ← List.get?_eq_getElem?, h]

theorem drop_split (text : Chars) (i s : Nat) (h : i ≤ s) :
    text.drop i = (text.drop i).take (s - i) ++ text.drop s := by
  have h2 : (text.drop i).drop (s - i) = text.drop s := by
    rw [List.drop_drop]
    congr 1
    omega
  conv_lhs => rw [← List.take_append_drop (s - i) (text.drop i)]
  rw [h2]

theorem prefix_drop (p text : Chars) (s : Nat)
    (h : p.isPrefixOf (text.drop s) = true) :
    text.drop s = p ++ text.drop (s + p.length) := by
  rw [List.isPrefixOf_iff_prefix] at h
  obtain ⟨t, ht⟩ := h
  have hdrop : text.drop (s + p.length) = t := by
    rw [← List.drop_drop]

    rw [← ht]
    simp
  rw [hdrop, ht]

/-- The single-pass property: the replacement pass equals the rendering
of the match structure, which is computed from the patterns and the
original text alone — substituted values are spliced in verbatim and
never re-scanned. -/
theorem replaceLoop_eq_render (pats vals : List Chars) (text : Chars) :
    ∀ (fuel i : Nat),
      replaceLoop pats vals text i fuel =
        renderVals vals (scanLoop pats text i fuel).1 (scanLoop pats text i fuel).2 := by
  intro fuel
  induction fuel with
  | zero => intro i; rw [replaceLoop, scanLoop]; rfl
  | succ fuel ih =>
    intro i
    rw [replaceLoop, scanLoop]
    cases hf : findFrom pats text i with
    | none => rfl
    | some m =>
      obtain ⟨s, idx, len⟩ := m
      dsimp only []
      by_cases hz : len = 0
      · rw [if_pos hz, if_pos hz]
        cases ht : text.drop s with
        | nil => simp [renderVals]
        | cons c rest2 =>
          rw [ih (s + 1)]
          rcases hscan : scanLoop pats text (s + 1) fuel with ⟨segs, tail⟩
          cases segs with
          | nil => simp [renderVals]
          | cons hd tl =>
            obtain ⟨s1, j⟩ := hd
            simp [renderVals]
      · rw [if_neg hz, if_neg hz]
        rw [ih (s + len)]
        simp [renderVals]

/-- The match structure rebuilds the scanned text: rendering each matched
index as the pattern itself recovers the template suffix.  Together with
`replaceLoop_eq_render` this says the pass replaces exactly the matched
template occurrences of the patterns. -/
theorem scanLoop_joinTpl (pats : List Chars) (text : Chars) :
    ∀ (fuel i : Nat),
      joinTpl pats (scanLoop pats text i fuel).1 (scanLoop pats text i fuel).2 =
        text.drop i := by
  intro fuel
  induction fuel with
  | zero => intro i; rw [scanLoop]; rfl
  | succ fuel ih =>
    intro i
    rw [scanLoop]
    cases hf : findFrom pats text i with
    | none => rfl
    | some m =>
      obtain ⟨s, idx, len⟩ := m
      obtain ⟨his, p, hget, hplen, hpre⟩ := findFrom_sound pats text i s idx len hf
      have hgetD : pats.getD idx [] = p := getD_of_get? pats idx p hget
      have hsplit : text.drop i = (text.drop i).take (s - i) ++ text.drop s :=
        drop_split text i s his
      have hdropmatch : text.drop s = p ++ text.drop (s + len) := by
        rw [← hplen]
        exact prefix_drop p text s hpre
      dsimp only []
      by_cases hz : len = 0
      · have hpnil : p = [] := List.length_eq_zero.mp (by omega)
        rw [if_pos hz]
        cases ht : text.drop s with
        | nil =>
          rw [joinTpl, joinTpl, hgetD, hpnil]
          conv_rhs => rw [hsplit, ht]
          simp
        | cons c rest2 =>
          have hdrop1 : text.drop (s + 1) = rest2 := by
            rw [← List.drop_drop, ht]
            rfl
          rcases hscan : scanLoop pats text (s + 1) fuel with ⟨segs, tail⟩
          have ihr := ih (s + 1)
          rw [hscan] at ihr
          cases segs with
          | nil =>
            rw [joinTpl] at ihr
            dsimp only [] at ihr
            rw [hdrop1] at ihr
            rw [joinTpl, joinTpl, hgetD, hpnil]
            conv_rhs => rw [hsplit, ht]
            rw [ihr]
            simp
          | cons hd tl =>
            obtain ⟨s1, j⟩ := hd
            rw [joinTpl] at ihr
            dsimp only [] at ihr
            rw [hdrop1] at ihr
            rw [joinTpl, joinTpl, hgetD, hpnil]
            conv_rhs => rw [hsplit, ht]
            rw [← ihr]
            simp
      · rw [if_neg hz]
        rw [joinTpl, hgetD]
        have ihr := ih (s + len)
        conv_rhs => rw [hsplit, hdropmatch]
        rw [ihr]
        simp

theorem scanLoop_idx_lt (pats : List Chars) (text : Chars) :
    ∀ (fuel i : Nat) (si : Chars × Nat), si ∈ (scanLoop pats text i fuel).1 →
      si.2 < pats.length := by
  intro fuel
  induction fuel with
  | zero =>
    intro i si hsi
    rw [scanLoop] at hsi
    exact absurd hsi (by simp)
  | succ fuel ih =>
    intro i si hsi
    rw [scanLoop] at hsi
    cases hf : findFrom pats text i with
    | none => rw [hf] at hsi; exact absurd hsi (by simp)
    | some m =>
      obtain ⟨s, idx, len⟩ := m
      rw [hf] at hsi
      obtain ⟨his, p, hget, hplen, hpre⟩ := findFrom_sound pats text i s idx len hf
      have hidxlt : idx < pats.length := (List.get?_eq_some.mp hget).1
      dsimp only [] at hsi
      by_cases hz : len = 0
      · rw [if_pos hz] at hsi
        cases ht : text.drop s with
        | nil =>
          rw [ht] at hsi
          simp at hsi
          rw [hsi]
          exact hidxlt
        | cons c rest2 =>
          rw [ht] at hsi
          rcases hscan : scanLoop pats text (s + 1) fuel with ⟨segs, tail⟩
          rw [hscan] at hsi
          cases segs with
          | nil =>
            simp at hsi
            rw [hsi]
            exact hidxlt
          | cons hd tl =>
            obtain ⟨s1, j⟩ := hd
            simp at hsi
            rcases hsi with hsi | hsi | hsi
            · rw [hsi]
              exact hidxlt
            · rw [hsi]
              have : (s1, j) ∈ (scanLoop pats text (s + 1) fuel).1 := by
                rw [hscan]; simp
              exact ih (s + 1) (s1, j) this
            · have : si ∈ (scanLoop pats text (s + 1) fuel).1 := by
                rw [hscan]; simp [hsi]
              exact ih (s + 1) si this
      · rw [if_neg hz] at hsi
        simp at hsi
        rcases hsi with hsi | hsi
        · rw [hsi]
          exact hidxlt
        · exact ih (s + len) si hsi

theorem replaceAll_eq_scanMatches (pats vals : List Chars) (text : Chars) :
    replaceAll pats vals text =
      renderVals vals (scanMatches pats text).1 (scanMatches pats text).2 := by
  rw [replaceAll, scanMatches]
  exact replaceLoop_eq_render pats vals text (text.length + 1) 0

theorem processArgs_ok_full (declared : List SmallStr)
    (args : List (SmallStr × SmallStr))
    (hdecl : ∀ p ∈ args, p.1 ∈ declared) (hnd : (args.map Prod.fst).Nodup) :
    processArgs declared args [] [] = .ok (args.map Prod.fst, args.map Prod.snd) := by
  have h := processArgs_append declared args [] [] [] hdecl (by simpa using hnd)
  rw [List.append_nil] at h
  rw [h, processArgs]
  simp

/-- C1 as stated is refuted: for the registered key "k" and registered
language "en", the single binding NAME → "NAME" is declared and
duplicate-free, `Translate` succeeds, yet its output still contains a
literal occurrence of the bound placeholder name "NAME" (the replacement
value reintroduced it). -/
theorem translate_residual_occurrence_counterexample :
    ((Translator.new ["en"]).add_text "k" ["NAME"] [("en", "Hello, NAME!")]).2 = .ok () ∧
    alookup "k" ((Translator.new ["en"]).add_text "k" ["NAME"]
      [("en", "Hello, NAME!")]).1.translations =
      some ⟨["NAME"], [(0, "Hello, NAME!")]⟩ ∧
    (["NAME"] : List SmallStr).Nodup ∧
    ((Translator.new ["en"]).add_text "k" ["NAME"] [("en", "Hello, NAME!")]).1.translate
      "k" "en" [("NAME", "NAME")] = some (.ok "Hello, NAME!") ∧
    occursIn "NAME".data "Hello, NAME!".data = true := by
  refine ⟨by decide, by decide, by decide, by decide, by decide⟩

/-- C1 amended: for a registered key and language (resolved entry,
language id and template), if every binding's placeholder name is
declared for the key and the bindings contain no duplicate names, then
`Translate` succeeds and its output is the selected template transformed
by the single left-to-right pass: the template splits into unmatched
segments interleaved with matched occurrences of bound placeholder
names, and the output is the same segments with each matched occurrence
replaced by exactly its bound value; literal occurrences of bound names
may remain in the output only where replacement values or segment
boundaries reintroduce them. -/
theorem translate_single_pass_replacement (tr : Translator) (key language : SmallStr)
    (args : List (SmallStr × SmallStr)) (entry : Translation) (id : LanguageId)
    (msg : SmallStr)
    (hk : alookup key tr.translations = some entry)
    (hl : position (fun x => decide (x = language)) tr.languages = some id)
    (hm : alookup id entry.translations = some msg)
    (hdecl : ∀ p ∈ args, p.1 ∈ entry.arguments)
    (hnd : (args.map Prod.fst).Nodup) :
    tr.translate key language args =
      some (.ok (String.mk (renderVals ((args.map Prod.snd).map String.data)
        (scanMatches ((args.map Prod.fst).map String.data) msg.data).1
        (scanMatches ((args.map Prod.fst).map String.data) msg.data).2))) ∧
    joinTpl ((args.map Prod.fst).map String.data)
      (scanMatches ((args.map Prod.fst).map String.data) msg.data).1
      (scanMatches ((args.map Prod.fst).map String.data) msg.data).2 = msg.data ∧
    ∀ si ∈ (scanMatches ((args.map Prod.fst).map String.data) msg.data).1,
      si.2 < args.length := by
  have hpa : processArgs entry.arguments args [] [] =
      .ok (args.map Prod.fst, args.map Prod.snd) :=
    processArgs_ok_full entry.arguments args hdecl hnd
  refine ⟨?_, ?_, ?_⟩
  · rw [translate_eq tr key language args entry id msg hk hl hm, hpa]
    dsimp only []
    rw [replaceAll_eq_scanMatches]
  · rw [scanMatches]
    rw [scanLoop_joinTpl]
    simp
  · intro si hsi
    rw [scanMatches] at hsi
    have := scanLoop_idx_lt ((args.map Prod.fst).map String.data) msg.data
      (msg.data.length + 1) 0 si hsi
    simpa using this

/-- Witness for the amended C1. -/
theorem translate_single_pass_replacement_witness :
    (⟨["en"], [("k", ⟨["A"], [(0, "xAy")]⟩)]⟩ : Translator).translate "k" "en"
      [("A", "1")] =
      some (.ok (String.mk (renderVals (["1"].map String.data)
        (scanMatches (["A"].map String.data) "xAy".data).1
        (scanMatches (["A"].map String.data) "xAy".data).2))) ∧
    joinTpl (["A"].map String.data)
      (scanMatches (["A"].map String.data) "xAy".data).1
      (scanMatches (["A"].map String.data) "xAy".data).2 = "xAy".data :=
  ⟨(translate_single_pass_replacement ⟨["en"], [("k", ⟨["A"], [(0, "xAy")]⟩)]⟩ "k" "en"
      [("A", "1")] ⟨["A"], [(0, "xAy")]⟩ 0 "xAy" (by decide) (by decide) (by decide)
      (by decide) (by decide)).1,
    (translate_single_pass_replacement ⟨["en"], [("k", ⟨["A"], [(0, "xAy")]⟩)]⟩ "k" "en"
      [("A", "1")] ⟨["A"], [(0, "xAy")]⟩ 0 "xAy" (by decide) (by decide) (by decide)
      (by decide) (by decide)).2.1⟩

/-- C2: the substitution is single-pass — the match structure
(`scanMatches`) is a function of the patterns and the original template
only, so substituted output text is never re-scanned; in particular for
template "Hello, NAME!" with the single binding NAME → "NAME",
`Translate` returns "Hello, NAME!" (the value that equals the
placeholder's marker is not re-substituted). -/
theorem substitution_single_pass :
    (∀ (pats vals : List Chars) (text : Chars),
      replaceAll pats vals text =
        renderVals vals (scanMatches pats text).1 (scanMatches pats text).2) ∧
    ((Translator.new ["en"]).add_text "k" ["NAME"] [("en", "Hello, NAME!")]).2 = .ok () ∧
    ((Translator.new ["en"]).add_text "k" ["NAME"] [("en", "Hello, NAME!")]).1.translate
      "k" "en" [("NAME", "NAME")] = some (.ok "Hello, NAME!") :=
  ⟨replaceAll_eq_scanMatches, by decide, by decide⟩
